import Mathlib

/-!
A verification development for the event-loop core of the `liberty` C
library (`liberty.c`): the timer min-heap, the poller wait-timeout
computation, the epoll readiness-batch bookkeeping, the asynchronous job
manager, and the connection-establishment helper ("connector").

Each definition is a shallow embedding of the corresponding C function,
keeping its name where Lean allows.  C pointers to `struct poller_timer`
objects are modelled as indices (`Nat`) into a list of timer records, so
that mutation through a pointer becomes `List.set` at that index.
Machine integers are modelled as `Int`/`Nat`; the only place overflow
could matter (`poller_timers_get_poll_timeout` clamping to `INT_MAX`) is
made explicit.
-/

namespace Liberty

/-- `struct poller_timer`: absolute expiry time in milliseconds (`when`)
and the position in the owning heap array, or `-1` when not scheduled
(`index`).  The dispatcher callback and user data play no role in the
scheduling algorithms and are omitted. -/
structure PTimer where
  when : Int
  index : Int
  deriving Repr, DecidableEq, Inhabited

/-- `struct poller_timers`: `timers` models the pool of timer objects the
heap's pointers refer to (a pointer is a position in this list); `heap`
is the heap array of pointers (`struct poller_timer **heap`), and
`self->len` is `heap.length`. -/
structure PollerTimers where
  timers : List PTimer
  heap : List Nat
  deriving Repr, DecidableEq, Inhabited

/-- Dereference a timer pointer: `timer->when`. -/
def PollerTimers.twhen (s : PollerTimers) (tid : Nat) : Int :=
  (s.timers.getD tid default).when

/-- Dereference a timer pointer: `timer->index`. -/
def PollerTimers.tindex (s : PollerTimers) (tid : Nat) : Int :=
  (s.timers.getD tid default).index

/-- `self->heap[i]->when`: the sort key of heap slot `i`. -/
def PollerTimers.key (s : PollerTimers) (i : Nat) : Int :=
  s.twhen (s.heap.getD i 0)

/-- The store `timer->index = v` performed through a heap pointer. -/
def PollerTimers.setIndex (s : PollerTimers) (tid : Nat) (v : Int) :
    PollerTimers :=
  { s with
    timers := s.timers.set tid ({ s.timers.getD tid default with index := v }) }

/-- The store `timer->when = v` performed through a timer pointer. -/
def PollerTimers.setWhen (s : PollerTimers) (tid : Nat) (v : Int) :
    PollerTimers :=
  { s with
    timers := s.timers.set tid ({ s.timers.getD tid default with when := v }) }

/-- The three-line pointer swap of `self->heap[i]` and `self->heap[j]`
inside `poller_timers_heapify_down`/`_up`. -/
def PollerTimers.hswap (s : PollerTimers) (i j : Nat) : PollerTimers :=
  { s with heap := (s.heap.set i (s.heap.getD j 0)).set j (s.heap.getD i 0) }

/-- The `lowest` computation of one `poller_timers_heapify_down` loop
iteration: start from the parent, prefer the left child when its key is
strictly smaller, then the right child when its key is strictly smaller
than the current candidate's. -/
def poller_timers_lowest (s : PollerTimers) (index : Nat) : Nat :=
  let len := s.heap.length
  let left := 2 * index + 1
  let right := 2 * index + 2
  let lowest := if left < len ∧ s.key left < s.key index then left else index
  if right < len ∧ s.key right < s.key lowest then right else lowest

theorem poller_timers_lowest_ne (s : PollerTimers) (index : Nat)
    (h : poller_timers_lowest s index ≠ index) :
    index < poller_timers_lowest s index ∧
      poller_timers_lowest s index < s.heap.length ∧
      (poller_timers_lowest s index = 2 * index + 1 ∨
        poller_timers_lowest s index = 2 * index + 2) := by
  simp only [poller_timers_lowest] at h ⊢
  split_ifs at h ⊢ with h1 h2 h3 <;>
    first
      | exact absurd rfl h
      | refine ⟨by omega, by omega, by omega⟩

/-- `poller_timers_heapify_down`: sift the element at `index` down, also
rewriting the back-index field of every moved timer. -/
def poller_timers_heapify_down (s : PollerTimers) (index : Nat) :
    PollerTimers :=
  let lowest := poller_timers_lowest s index
  if h : lowest = index then s
  else
    let s1 := s.hswap index lowest
    let s2 := (s1.setIndex (s1.heap.getD index 0) index).setIndex
      (s1.heap.getD lowest 0) lowest
    poller_timers_heapify_down s2 lowest
  termination_by s.heap.length - index
  decreasing_by
    have hlt := poller_timers_lowest_ne s index h
    simp only [PollerTimers.setIndex, PollerTimers.hswap, List.length_set]
    omega

/-- `poller_timers_heapify_up`: sift the element at `index` up, also
rewriting the back-index field of every moved timer. -/
def poller_timers_heapify_up (s : PollerTimers) (index : Nat) :
    PollerTimers :=
  if _h : index ≠ 0 then
    let parent := (index - 1) / 2
    if s.key parent ≤ s.key index then s
    else
      let s1 := s.hswap parent index
      let s2 := (s1.setIndex (s1.heap.getD parent 0) parent).setIndex
        (s1.heap.getD index 0) index
      poller_timers_heapify_up s2 parent
  else s
  termination_by index
  decreasing_by omega

theorem heap_setIndex (s : PollerTimers) (tid : Nat) (v : Int) :
    (s.setIndex tid v).heap = s.heap := rfl

theorem heap_length_hswap (s : PollerTimers) (i j : Nat) :
    (s.hswap i j).heap.length = s.heap.length := by
  simp [PollerTimers.hswap]

theorem set_set_perm (l : List Nat) (i j : Nat)
    (hi : i < l.length) (hj : j < l.length) :
    ((l.set i (l.getD j 0)).set j (l.getD i 0)).Perm l := by
  rw [List.perm_iff_count]
  intro b
  rw [List.getD_eq_getElem _ _ hi, List.getD_eq_getElem _ _ hj]
  have hmi : l[i] = b → 0 < List.count b l := fun hb => by
    rw [List.count_pos_iff]; exact hb ▸ List.getElem_mem hi
  rcases eq_or_ne i j with rfl | hij
  · rw [List.set_set, List.count_set _ _ _ _ hi]
    by_cases hb : l[i] = b
    · have := hmi hb; simp [hb]; omega
    · simp [hb]
  · have hj' : j < (l.set i l[j]).length := by simpa using hj
    rw [List.count_set _ _ _ _ hj', List.count_set _ _ _ _ hi]
    have he : (l.set i l[j])[j] = l[j] := by
      rw [List.getElem_set]; simp [hij]
    rw [he]
    by_cases hbi : l[i] = b
    · have := hmi hbi
      by_cases hbj : l[j] = b <;> simp [hbi, hbj] <;> omega
    · by_cases hbj : l[j] = b <;> simp [hbi, hbj] <;> omega

/-- States reachable by the primitive mutations `poller_timers_heapify_down`
and `poller_timers_heapify_up` perform: in-range pointer swaps in the heap
array and back-index stores of in-range positions. -/
inductive HeapOps : PollerTimers → PollerTimers → Prop
  | refl (s : PollerTimers) : HeapOps s s
  | swap (s : PollerTimers) (i j : Nat) (t : PollerTimers)
      (hi : i < s.heap.length) (hj : j < s.heap.length)
      (h : HeapOps (s.hswap i j) t) : HeapOps s t
  | idx (s : PollerTimers) (tid : Nat) (v : Int) (t : PollerTimers)
      (hv : 0 ≤ v) (hlen : v.toNat < s.heap.length)
      (h : HeapOps (s.setIndex tid v) t) : HeapOps s t

theorem HeapOps.heap_len {s t : PollerTimers} (h : HeapOps s t) :
    t.heap.length = s.heap.length := by
  induction h with
  | refl s => rfl
  | swap s i j t hi hj h ih => rw [ih, heap_length_hswap]
  | idx s tid v t hv hlen h ih => rw [ih]; rfl

theorem HeapOps.timers_len {s t : PollerTimers} (h : HeapOps s t) :
    t.timers.length = s.timers.length := by
  induction h with
  | refl s => rfl
  | swap s i j t hi hj h ih => rw [ih]; rfl
  | idx s tid v t hv hlen h ih =>
      rw [ih]; simp [PollerTimers.setIndex]

theorem twhen_setIndex (s : PollerTimers) (tid : Nat) (v : Int) (x : Nat) :
    (s.setIndex tid v).twhen x = s.twhen x := by
  unfold PollerTimers.twhen PollerTimers.setIndex
  simp only [List.getD_eq_getElem?_getD, List.getElem?_set]
  rcases eq_or_ne tid x with rfl | hne
  · by_cases h : tid < s.timers.length
    · simp [h, List.getD_eq_getElem?_getD]
    · have hnone : s.timers[tid]? = none := by
        rw [List.getElem?_eq_none_iff]; omega
      simp [h, hnone]
  · simp [hne]

theorem tindex_setIndex (s : PollerTimers) (tid : Nat) (v : Int) (x : Nat) :
    (s.setIndex tid v).tindex x =
      if tid = x ∧ tid < s.timers.length then v else s.tindex x := by
  unfold PollerTimers.tindex PollerTimers.setIndex
  simp only [List.getD_eq_getElem?_getD, List.getElem?_set]
  rcases eq_or_ne tid x with rfl | hne
  · by_cases h : tid < s.timers.length
    · simp [h, List.getD_eq_getElem?_getD]
    · have hnone : s.timers[tid]? = none := by
        rw [List.getElem?_eq_none_iff]; omega
      simp [h, hnone]
  · simp [hne]

theorem HeapOps.twhen_eq {s t : PollerTimers} (h : HeapOps s t) (x : Nat) :
    t.twhen x = s.twhen x := by
  induction h with
  | refl s => rfl
  | swap s i j t hi hj h ih => rw [ih]; rfl
  | idx s tid v t hv hlen h ih => rw [ih, twhen_setIndex]

theorem HeapOps.perm {s t : PollerTimers} (h : HeapOps s t) :
    t.heap.Perm s.heap := by
  induction h with
  | refl s => exact List.Perm.refl _
  | swap s i j t hi hj h ih =>
      exact ih.trans (set_set_perm s.heap i j hi hj)
  | idx s tid v t hv hlen h ih => exact ih

theorem HeapOps.index_in_range {s t : PollerTimers} (h : HeapOps s t)
    (x : Nat) (h0 : 0 ≤ s.tindex x) (h1 : (s.tindex x).toNat < s.heap.length) :
    0 ≤ t.tindex x ∧ (t.tindex x).toNat < t.heap.length := by
  induction h with
  | refl s => exact ⟨h0, h1⟩
  | swap s i j t hi hj h ih =>
      have : (s.hswap i j).tindex x = s.tindex x := rfl
      refine ih ?_ ?_ <;>
        simp only [this, PollerTimers.hswap, List.length_set] <;> assumption
  | idx s tid v t hv hlen h ih =>
      rw [tindex_setIndex] at ih
      split_ifs at ih with hx
      · exact ih hv (by simpa [heap_setIndex] using hlen)
      · exact ih h0 (by simpa [heap_setIndex] using h1)

theorem heapify_down_ops (s : PollerTimers) (index : Nat) :
    HeapOps s (poller_timers_heapify_down s index) := by
  induction s, index using poller_timers_heapify_down.induct
  case case1 s index lowest heq =>
    rw [poller_timers_heapify_down]
    simp only [lowest] at heq
    simp only [dif_pos heq]
    exact HeapOps.refl s
  case case2 s index lowest hne s1 s2 ih =>
    simp only [lowest] at hne
    obtain ⟨hgt, hlow, -⟩ := poller_timers_lowest_ne s index hne
    rw [poller_timers_heapify_down]
    simp only [dif_neg hne]
    simp only [s2, s1, lowest] at ih
    exact HeapOps.swap s index (poller_timers_lowest s index) _
      (by omega) hlow
      (HeapOps.idx _ ((s.hswap index (poller_timers_lowest s index)).heap.getD
          index 0) (index : Int) _ (Int.natCast_nonneg _)
        (by simp only [Int.toNat_natCast, heap_length_hswap]; omega)
        (HeapOps.idx _ _ ((poller_timers_lowest s index : Nat) : Int) _
          (Int.natCast_nonneg _)
          (by simp only [Int.toNat_natCast, heap_setIndex,
                heap_length_hswap]; omega)
          ih))

theorem heapify_up_ops (s : PollerTimers) (index : Nat) :
    index < s.heap.length → HeapOps s (poller_timers_heapify_up s index) := by
  induction s, index using poller_timers_heapify_up.induct
  case case1 s index hne parent hle =>
    intro hidx
    rw [poller_timers_heapify_up]
    simp only [parent] at hle
    simp only [dif_pos hne, if_pos hle]
    exact HeapOps.refl s
  case case2 s index hne parent hlt s1 s2 ih =>
    intro hidx
    simp only [parent] at hlt
    rw [poller_timers_heapify_up]
    simp only [dif_pos hne, if_neg hlt]
    simp only [s2, s1, parent] at ih
    have hp : (index - 1) / 2 < s.heap.length := by omega
    have ih2 := ih (by simp only [heap_setIndex, heap_length_hswap]; omega)
    exact HeapOps.swap s ((index - 1) / 2) index _ hp hidx
      (HeapOps.idx _ _ (((index - 1) / 2 : Nat) : Int) _ (Int.natCast_nonneg _)
        (by simp only [Int.toNat_natCast, heap_length_hswap]; omega)
        (HeapOps.idx _ _ ((index : Nat) : Int) _ (Int.natCast_nonneg _)
          (by simp only [Int.toNat_natCast, heap_setIndex,
                heap_length_hswap]; omega)
          ih2))
  case case3 s index hne =>
    intro _hidx
    rw [poller_timers_heapify_up]
    simp only [dif_neg hne]
    exact HeapOps.refl s

theorem heap_length_heapify_down (s : PollerTimers) (index : Nat) :
    (poller_timers_heapify_down s index).heap.length = s.heap.length :=
  (heapify_down_ops s index).heap_len

/-- `poller_timers_remove_at_index`: clear the removed timer's back index,
shrink the heap; unless the removed slot was the last one, move the last
element into it and sift it down.  (The C function asserts
`index < self->len`; out-of-range behaviour of this total model is
irrelevant.) -/
def poller_timers_remove_at_index (s : PollerTimers) (index : Nat) :
    PollerTimers :=
  let s1 := s.setIndex (s.heap.getD index 0) (-1)
  if index = s1.heap.length - 1 then
    { s1 with heap := s1.heap.take (s1.heap.length - 1) }
  else
    let last := s1.heap.getD (s1.heap.length - 1) 0
    let s2 := { s1 with
      heap := (s1.heap.take (s1.heap.length - 1)).set index last }
    let s3 := s2.setIndex last index
    poller_timers_heapify_down s3 index

theorem heap_length_remove_at_index (s : PollerTimers) (index : Nat)
    (h : s.heap.length ≠ 0) :
    (poller_timers_remove_at_index s index).heap.length =
      s.heap.length - 1 := by
  rw [poller_timers_remove_at_index]
  simp only [heap_setIndex]
  split_ifs with h1
  · simp [heap_setIndex, List.length_take]
  · rw [heap_length_heapify_down]
    simp [heap_setIndex, List.length_take]

/-- `poller_timers_dispatch`: repeatedly remove the heap root while its
expiry is at most `now`, invoking its dispatcher after the removal.  The
C function reads `now` from the monotonic clock; here it is a parameter.
Callback bodies are opaque to the scheduler, so the model returns the
list of fired timers in invocation order instead of calling them. -/
def poller_timers_dispatch (s : PollerTimers) (now : Int) :
    PollerTimers × List Nat :=
  if h : s.heap.length ≠ 0 ∧ s.key 0 ≤ now then
    let tid := s.heap.getD 0 0
    let s1 := poller_timers_remove_at_index s 0
    let r := poller_timers_dispatch s1 now
    (r.1, tid :: r.2)
  else (s, [])
  termination_by s.heap.length
  decreasing_by
    rw [heap_length_remove_at_index s 0 h.1]
    omega

/-- `poller_timers_set`: reschedule in place when the timer is already
scheduled (`timer->index != -1`), sifting it down and then up from its
(possibly updated) position; otherwise append it to the heap, record its
index and sift it up. -/
def poller_timers_set (s : PollerTimers) (tid : Nat) : PollerTimers :=
  if s.tindex tid ≠ -1 then
    let s1 := poller_timers_heapify_down s (s.tindex tid).toNat
    poller_timers_heapify_up s1 (s1.tindex tid).toNat
  else
    let s1 := { s with heap := s.heap ++ [tid] }
    let s2 := s1.setIndex tid s.heap.length
    poller_timers_heapify_up s2 s.heap.length

/-- `poller_timer_set`: set the timer's absolute expiry to the current
monotonic time (`now`, a parameter here) plus the relative timeout, then
hand it to `poller_timers_set`. -/
def poller_timer_set (s : PollerTimers) (tid : Nat) (now timeout_ms : Int) :
    PollerTimers :=
  poller_timers_set (s.setWhen tid (now + timeout_ms)) tid

/-- `poller_timers_get_poll_timeout`: `-1` (wait forever) with no timer
scheduled, else the clamped time to the root's expiry. -/
def poller_timers_get_poll_timeout (s : PollerTimers) (now : Int) : Int :=
  if s.heap.length = 0 then -1
  else
    let timeout := s.key 0 - now
    if timeout ≤ 0 then 0
    else if timeout > 2147483647 then 2147483647
    else timeout

/-- The C `MIN` macro. -/
def cMIN (a b : Int) : Int := if a < b then a else b

/-- `poller_common_get_timeout`: `0` when the idle list is non-empty;
otherwise the timer timeout, additionally clamped with `MIN (_, 1000)`
when the async manager's delayed queue is non-empty. -/
def poller_common_get_timeout (idle_nonempty delayed_nonempty : Bool)
    (s : PollerTimers) (now : Int) : Int :=
  if idle_nonempty then 0
  else
    let timeout := poller_timers_get_poll_timeout s now
    if delayed_nonempty then cMIN timeout 1000 else timeout

theorem getD_set_set (l : List Nat) (i j m : Nat)
    (hi : i < l.length) (hj : j < l.length) :
    ((l.set i (l.getD j 0)).set j (l.getD i 0)).getD m 0 =
      if m = j then l.getD i 0
      else if m = i then l.getD j 0
      else l.getD m 0 := by
  simp only [List.getD_eq_getElem?_getD, List.getElem?_set, List.length_set]
  rcases eq_or_ne j m with rfl | hjm
  · simp [hj]
  · rcases eq_or_ne i m with rfl | him
    · simp [Ne.symm hjm, hjm, hi]
    · simp [Ne.symm hjm, Ne.symm him, hjm, him]

theorem key_setIndex (s : PollerTimers) (tid : Nat) (v : Int) (m : Nat) :
    (s.setIndex tid v).key m = s.key m := by
  unfold PollerTimers.key
  rw [heap_setIndex, twhen_setIndex]

theorem key_hswap (s : PollerTimers) (i j m : Nat)
    (hi : i < s.heap.length) (hj : j < s.heap.length) :
    (s.hswap i j).key m =
      if m = j then s.key i
      else if m = i then s.key j
      else s.key m := by
  unfold PollerTimers.key PollerTimers.hswap
  simp only
  rw [getD_set_set s.heap i j m hi hj]
  split_ifs <;> rfl

/-- The binary min-heap property over expiry keys: every parent's key is
at most either child's key. -/
def HeapProp (s : PollerTimers) : Prop :=
  ∀ p < s.heap.length, ∀ c < s.heap.length,
    (c = 2 * p + 1 ∨ c = 2 * p + 2) → s.key p ≤ s.key c

instance (s : PollerTimers) : Decidable (HeapProp s) := by
  unfold HeapProp; infer_instance

/-- The back-index invariant: every scheduled timer's stored index points
to its own slot in the heap array. -/
def IndexConsistent (s : PollerTimers) : Prop :=
  ∀ i < s.heap.length, s.tindex (s.heap.getD i 0) = (i : Int)

instance (s : PollerTimers) : Decidable (IndexConsistent s) := by
  unfold IndexConsistent; infer_instance

theorem heap_root_min (s : PollerTimers) (hp : HeapProp s) (i : Nat)
    (hi : i < s.heap.length) : s.key 0 ≤ s.key i := by
  induction i using Nat.strong_induction_on with
  | _ i ih =>
    rcases Nat.eq_zero_or_pos i with rfl | hpos
    · exact le_refl _
    · have hlt : (i - 1) / 2 < i := by omega
      have hchild : i = 2 * ((i - 1) / 2) + 1 ∨ i = 2 * ((i - 1) / 2) + 2 := by
        omega
      exact le_trans (ih _ hlt (by omega)) (hp _ (by omega) i hi hchild)

theorem poller_timers_lowest_min (s : PollerTimers) (index : Nat) :
    s.key (poller_timers_lowest s index) ≤ s.key index ∧
    ∀ c, (c = 2 * index + 1 ∨ c = 2 * index + 2) → c < s.heap.length →
      s.key (poller_timers_lowest s index) ≤ s.key c := by
  simp only [poller_timers_lowest]
  split_ifs with h1 h2 h3
  · push_neg at *
    refine ⟨by linarith [h1.2, h2.2], fun c hc hlen => ?_⟩
    rcases hc with rfl | rfl
    · exact le_of_lt h2.2
    · exact le_refl _
  · push_neg at *
    refine ⟨le_of_lt h1.2, fun c hc hlen => ?_⟩
    rcases hc with rfl | rfl
    · exact le_refl _
    · exact h2 hlen
  · push_neg at *
    refine ⟨by linarith [h3.2], fun c hc hlen => ?_⟩
    rcases hc with rfl | rfl
    · have := h1 hlen; linarith [h3.2]
    · exact le_refl _
  · push_neg at *
    refine ⟨le_refl _, fun c hc hlen => ?_⟩
    rcases hc with rfl | rfl
    · exact h1 hlen
    · exact h3 hlen

/-- The sift-down loop invariant at cursor `j`: the heap property may fail
only between `j` and its children, and `j`'s children are additionally
bounded below by `j`'s parent key. -/
def SiftDownInv (s : PollerTimers) (j : Nat) : Prop :=
  (∀ p < s.heap.length, ∀ c < s.heap.length,
      (c = 2 * p + 1 ∨ c = 2 * p + 2) → p ≠ j → s.key p ≤ s.key c) ∧
  (j ≠ 0 → ∀ c < s.heap.length, (c = 2 * j + 1 ∨ c = 2 * j + 2) →
      s.key ((j - 1) / 2) ≤ s.key c)

theorem heapify_down_heapprop (s : PollerTimers) (index : Nat) :
    SiftDownInv s index → HeapProp (poller_timers_heapify_down s index) := by
  induction s, index using poller_timers_heapify_down.induct
  case case1 s index lowest heq =>
    intro hinv
    simp only [lowest] at heq
    rw [poller_timers_heapify_down]
    simp only [dif_pos heq]
    obtain ⟨hmin1, hmin2⟩ := poller_timers_lowest_min s index
    rw [heq] at hmin2
    intro p hp c hc hchild
    rcases eq_or_ne p index with rfl | hne
    · exact hmin2 c hchild hc
    · exact hinv.1 p hp c hc hchild hne
  case case2 s index lowest hne s1 s2 ih =>
    intro hinv
    simp only [lowest] at hne
    simp only [s2, s1, lowest] at ih
    obtain ⟨hgt, hlow, hchild0⟩ := poller_timers_lowest_ne s index hne
    obtain ⟨hmin1, hmin2⟩ := poller_timers_lowest_min s index
    rw [poller_timers_heapify_down]
    simp only [dif_neg hne]
    refine ih ?_
    set low := poller_timers_lowest s index with hlowdef
    have hidx : index < s.heap.length := lt_trans hgt hlow
    have hlen2 : (((s.hswap index low).setIndex
        ((s.hswap index low).heap.getD index 0) (index : Int)).setIndex
        ((s.hswap index low).heap.getD low 0) (low : Int)).heap.length =
        s.heap.length := by
      simp [heap_setIndex, heap_length_hswap]
    have hkey2 : ∀ m, (((s.hswap index low).setIndex
        ((s.hswap index low).heap.getD index 0) (index : Int)).setIndex
        ((s.hswap index low).heap.getD low 0) (low : Int)).key m =
        if m = low then s.key index
        else if m = index then s.key low
        else s.key m := by
      intro m
      rw [key_setIndex, key_setIndex, key_hswap s index low m hidx hlow]
    constructor
    · intro p hp c hc hchild hpne
      rw [hlen2] at hp hc
      rw [hkey2, hkey2]
      split_ifs with e1 e2 e3 e4 e5 e6 e7 e8
      · exact absurd e1 hpne
      · exact absurd e1 hpne
      · exact absurd e1 hpne
      · -- p = index, c = low: the swapped pair itself
        exact hmin1
      · -- p = index, c = index: impossible, a node is not its own child
        omega
      · -- p = index, c a child of index other than low
        exact hmin2 c (by omega) hc
      · -- c = low with p neither index nor low: low's parent is index
        omega
      · -- c = index: p is index's parent; use the grandparent bound
        have hpar : p = (index - 1) / 2 := by omega
        rw [hpar]
        exact hinv.2 (by omega) low hlow (by omega)
      · -- untouched pair
        exact hinv.1 p hp c hc hchild e4
    · intro _hne0 c hc hchild
      rw [hlen2] at hc
      rw [hkey2, hkey2]
      have hplow : (low - 1) / 2 = index := by omega
      rw [hplow]
      have hc1 : ¬c = low := by omega
      have hc2 : ¬c = index := by omega
      simp only [if_neg hc1, if_neg hc2, if_neg (by omega : ¬index = low),
        if_pos rfl]
      exact hinv.1 low hlow c hc hchild (by omega)

theorem cons_set_take_perm (l : List Nat) (h : 2 ≤ l.length) :
    (l.getD 0 0 ::
      ((l.take (l.length - 1)).set 0 (l.getD (l.length - 1) 0))).Perm l := by
  cases l with
  | nil => simp at h
  | cons a t =>
    obtain ⟨k, hk⟩ : ∃ k, t.length = k + 1 :=
      ⟨t.length - 1, by simp at h; omega⟩
    have h1 : (a :: t).length - 1 = k + 1 := by simp [hk]
    rw [h1, List.getD_cons_zero, List.getD_cons_succ, List.take_succ_cons,
      List.set_cons_zero]
    refine List.Perm.cons a ?_
    have h2 : (List.take k t).concat t[k] = t := by
      rw [List.take_concat_get t k (by omega), ← hk, List.take_length]
    have h3 : t.getD k 0 = t[k] := List.getD_eq_getElem t 0 (by omega)
    rw [h3]
    have h4 : (t[k] :: (List.take k t ++ [])).Perm
        (List.take k t ++ t[k] :: []) :=
      List.Perm.symm List.perm_middle
    rw [List.append_nil] at h4
    have h5 : List.take k t ++ [t[k]] = t := by
      simpa [List.concat_eq_append] using h2
    rw [h5] at h4
    exact h4

theorem twhen_remove_at_index (s : PollerTimers) (index : Nat) (x : Nat) :
    (poller_timers_remove_at_index s index).twhen x = s.twhen x := by
  rw [poller_timers_remove_at_index]
  simp only [heap_setIndex]
  split_ifs with h1
  · show (s.setIndex (s.heap.getD index 0) (-1)).twhen x = s.twhen x
    exact twhen_setIndex _ _ _ _
  · rw [(heapify_down_ops _ _).twhen_eq, twhen_setIndex]
    show (s.setIndex (s.heap.getD index 0) (-1)).twhen x = s.twhen x
    exact twhen_setIndex _ _ _ _

theorem remove_at_index_zero_spec (s : PollerTimers) (hp : HeapProp s)
    (hne : s.heap.length ≠ 0) :
    HeapProp (poller_timers_remove_at_index s 0) ∧
    (s.heap.getD 0 0 :: (poller_timers_remove_at_index s 0).heap).Perm
      s.heap := by
  rw [poller_timers_remove_at_index]
  simp only [heap_setIndex]
  split_ifs with h1
  · -- the root was the only element
    have hlen1 : s.heap.length = 1 := by omega
    obtain ⟨a, ha⟩ := List.length_eq_one.mp hlen1
    constructor
    · intro p hp' c hc' hchild
      simp [List.length_take] at hp'
      omega
    · simp only [ha, List.length_cons, List.length_nil]
      simp [List.take, ha]
  · -- general case: move the last element to the root and sift it down
    have hlen2 : 2 ≤ s.heap.length := by omega
    show HeapProp (poller_timers_heapify_down
        ((PollerTimers.mk (s.setIndex (s.heap.getD 0 0) (-1)).timers
          ((s.heap.take (s.heap.length - 1)).set 0
            (s.heap.getD (s.heap.length - 1) 0))).setIndex
          (s.heap.getD (s.heap.length - 1) 0) ((0 : Nat) : Int)) 0) ∧
      (s.heap.getD 0 0 :: (poller_timers_heapify_down
        ((PollerTimers.mk (s.setIndex (s.heap.getD 0 0) (-1)).timers
          ((s.heap.take (s.heap.length - 1)).set 0
            (s.heap.getD (s.heap.length - 1) 0))).setIndex
          (s.heap.getD (s.heap.length - 1) 0) ((0 : Nat) : Int)) 0).heap).Perm
        s.heap
    set S3 : PollerTimers :=
      (PollerTimers.mk (s.setIndex (s.heap.getD 0 0) (-1)).timers
        ((s.heap.take (s.heap.length - 1)).set 0
          (s.heap.getD (s.heap.length - 1) 0))).setIndex
        (s.heap.getD (s.heap.length - 1) 0) ((0 : Nat) : Int) with hS3
    have hheap3 : S3.heap =
        (s.heap.take (s.heap.length - 1)).set 0
          (s.heap.getD (s.heap.length - 1) 0) := rfl
    have hlen3 : S3.heap.length = s.heap.length - 1 := by
      rw [hheap3]; simp [List.length_take]
    have htwhen3 : ∀ x, S3.twhen x = s.twhen x := by
      intro x
      rw [hS3, twhen_setIndex]
      show (s.setIndex (s.heap.getD 0 0) (-1)).twhen x = s.twhen x
      exact twhen_setIndex _ _ _ _
    have hkey3 : ∀ m, m ≠ 0 → m < s.heap.length - 1 → S3.key m = s.key m := by
      intro m hm0 hmlt
      unfold PollerTimers.key
      rw [hheap3]
      have hgd : ((s.heap.take (s.heap.length - 1)).set 0
          (s.heap.getD (s.heap.length - 1) 0)).getD m 0 = s.heap.getD m 0 := by
        simp only [List.getD_eq_getElem?_getD, List.getElem?_set,
          List.length_take]
        rw [if_neg (by omega : ¬(0 = m)), List.getElem?_take_of_lt (by omega)]
      rw [hgd, htwhen3]
    constructor
    · -- heap property restored by the sift-down from the root
      apply heapify_down_heapprop
      constructor
      · intro p hp' c hc' hchild hpne
        rw [hlen3] at hp' hc'
        rw [hkey3 p hpne (by omega), hkey3 c (by omega) (by omega)]
        exact hp p (by omega) c (by omega) hchild
      · intro h0; exact absurd rfl h0
    · -- conservation: the root plus the new heap is the old heap
      refine List.Perm.trans
        (List.Perm.cons _ (heapify_down_ops S3 0).perm) ?_
      rw [hheap3]
      exact cons_set_take_perm s.heap hlen2

theorem twhen_mem_ge_root (s : PollerTimers) (hp : HeapProp s) (y : Nat)
    (hy : y ∈ s.heap) : s.key 0 ≤ s.twhen y := by
  obtain ⟨i, hi, rfl⟩ := List.getElem_of_mem hy
  have hroot := heap_root_min s hp i hi
  unfold PollerTimers.key at hroot
  rwa [List.getD_eq_getElem _ _ hi] at hroot

theorem poller_timers_dispatch_spec (s : PollerTimers) (now : Int)
    (hp : HeapProp s) :
    ((poller_timers_dispatch s now).2 ++
        (poller_timers_dispatch s now).1.heap).Perm s.heap ∧
    (∀ x, (poller_timers_dispatch s now).1.twhen x = s.twhen x) ∧
    (∀ tid ∈ (poller_timers_dispatch s now).2, s.twhen tid ≤ now) ∧
    (∀ tid ∈ (poller_timers_dispatch s now).1.heap, now < s.twhen tid) ∧
    ((poller_timers_dispatch s now).2.map s.twhen).Sorted (· ≤ ·) ∧
    HeapProp (poller_timers_dispatch s now).1 := by
  obtain ⟨n, hlen⟩ : ∃ n, s.heap.length = n := ⟨_, rfl⟩
  induction n using Nat.strong_induction_on generalizing s
  rename_i n ih
  rw [poller_timers_dispatch]
  by_cases hcond : s.heap.length ≠ 0 ∧ s.key 0 ≤ now
  · obtain ⟨hne, hle⟩ := hcond
    simp only [dif_pos (And.intro hne hle)]
    obtain ⟨hp1, hperm1⟩ := remove_at_index_zero_spec s hp hne
    have htw1 : ∀ x, (poller_timers_remove_at_index s 0).twhen x = s.twhen x :=
      twhen_remove_at_index s 0
    have hlen1 : (poller_timers_remove_at_index s 0).heap.length = n - 1 := by
      rw [heap_length_remove_at_index s 0 hne, hlen]
    obtain ⟨ihperm, ihtw, ihfired, ihrem, ihsort, ihhp⟩ :=
      ih (n - 1) (by omega) (poller_timers_remove_at_index s 0) hp1 hlen1
    refine ⟨?_, ?_, ?_, ?_, ?_, ihhp⟩
    · simp only [List.cons_append]
      exact (List.Perm.cons _ ihperm).trans hperm1
    · intro x; rw [ihtw, htw1]
    · intro tid htid
      rcases List.mem_cons.mp htid with rfl | hmem
      · exact hle
      · have := ihfired tid hmem
        rwa [htw1] at this
    · intro tid htid
      have := ihrem tid htid
      rwa [htw1] at this
    · rw [List.map_cons, List.sorted_cons]
      constructor
      · intro b hb
        obtain ⟨y, hy, rfl⟩ := List.mem_map.mp hb
        have hy1 : y ∈ (poller_timers_remove_at_index s 0).heap := by
          have : y ∈ (poller_timers_dispatch
              (poller_timers_remove_at_index s 0) now).2 ++
              (poller_timers_dispatch
                (poller_timers_remove_at_index s 0) now).1.heap :=
            List.mem_append.mpr (Or.inl hy)
          exact ihperm.mem_iff.mp this
        have hys : y ∈ s.heap := by
          have : y ∈ s.heap.getD 0 0 ::
              (poller_timers_remove_at_index s 0).heap :=
            List.mem_cons_of_mem _ hy1
          exact hperm1.mem_iff.mp this
        exact twhen_mem_ge_root s hp y hys
      · have hmapeq : (poller_timers_dispatch
            (poller_timers_remove_at_index s 0) now).2.map s.twhen =
            (poller_timers_dispatch
              (poller_timers_remove_at_index s 0) now).2.map
              (poller_timers_remove_at_index s 0).twhen :=
          List.map_congr_left (fun a _ => (htw1 a).symm)
        rw [hmapeq]
        exact ihsort
  · simp only [dif_neg hcond]
    push_neg at hcond
    refine ⟨by simp, by simp, by simp, ?_, by simp, hp⟩
    intro tid
    intro htid
    have hne : s.heap.length ≠ 0 := by
      intro h0
      rw [List.length_eq_zero] at h0
      rw [h0] at htid
      exact absurd htid (List.not_mem_nil tid)
    have := hcond hne
    calc now < s.key 0 := this
      _ ≤ s.twhen tid := twhen_mem_ge_root s hp tid htid

/-! ## The epoll backend's readiness-batch bookkeeping -/

/-- One entry of the captured epoll readiness batch: a `struct epoll_event`
plus what its `data.ptr` refers to.  `events` is the `uint32_t` events
word, where `4294967295` (`(uint32_t) -1`) marks removed entries; `ptrFd`
is the descriptor number `data.ptr->fd` read by the comparator (the dummy
redirection in `poller_remove_from_dispatch` preserves it); `reg`
identifies the `struct poller_fd` registration `data.ptr` points to
(dangling once the entry is marked, but never dereferenced then, because
the dispatch loop checks `events` first). -/
structure EpollEvent where
  events : Nat
  ptrFd : Int
  reg : Nat
  deriving Repr, DecidableEq, Inhabited

/-- `(uint32_t) -1`, the sentinel `poller_remove_from_dispatch` writes. -/
def epollDummyEvents : Nat := 4294967295

/-- The C library's `bsearch` over `revents[lo..hi)` with the
`poller_compare_fds` comparator, which subtracts the descriptor numbers
reached through `data.ptr`. -/
def bsearchRevents (l : List EpollEvent) (keyFd : Int) (lo hi : Nat) :
    Option Nat :=
  if _h : lo < hi then
    let mid := (lo + hi) / 2
    if keyFd < (l.getD mid default).ptrFd then bsearchRevents l keyFd lo mid
    else if (l.getD mid default).ptrFd < keyFd then
      bsearchRevents l keyFd (mid + 1) hi
    else some mid
  else none
  termination_by hi - lo
  decreasing_by all_goals omega

/-- `poller_remove_from_dispatch`: outside a dispatch batch there is
nothing to do; otherwise binary-search the batch (pre-sorted by descriptor
number) for the removed registration's entry, overwrite its `events` word
with `(uint32_t) -1`, and redirect its `data.ptr` at the poller's `dummy`
array so later binary searches still read the removed descriptor's number
without touching possibly freed memory. -/
def poller_remove_from_dispatch (revents : List EpollEvent)
    (fdnum : Int) (reg : Nat) : List EpollEvent :=
  if revents.length = 0 then revents
  else
    match bsearchRevents revents fdnum 0 revents.length with
    | none => revents
    | some k => revents.set k
        { events := epollDummyEvents, ptrFd := fdnum, reg := reg }

/-- The dispatch half of the epoll `poller_run` loop, starting at batch
entry `k`: entries whose `events` word equals `(uint32_t) -1` are skipped
with `continue`; every other entry's registration has its dispatcher
invoked.  Returns the registrations dispatched, in order. -/
def epollDispatchFrom (revents : List EpollEvent) (k : Nat) : List Nat :=
  ((revents.drop k).filter
    (fun e => e.events != epollDummyEvents)).map (fun e => e.reg)

/-! ## Re-entrancy guards of `poller_run` -/

/-- The points during one `poller_run` iteration at which user callbacks
run: timer/idle/async dispatch inside `poller_common_dispatch`, or the fd
readiness loop while entry `i` is being dispatched. -/
inductive RunPhase
  | commonDispatch
  | fdDispatch (i : Nat)
  deriving Repr, DecidableEq

/-- Value of `self->revents_len` during an epoll/kqueue `poller_run`
iteration that captured `n_fds` events: it is assigned `n_fds` right
after the wait and the sort, before `poller_common_dispatch` runs, and is
reset to `0` only after the fd loop. -/
def epoll_revents_len_at (n_fds : Nat) : RunPhase → Nat
  | RunPhase.commonDispatch => n_fds
  | RunPhase.fdDispatch _ => n_fds

/-- The epoll/kqueue `poller_run` entry assertion
`hard_assert (!self->revents_len)`: a nested call is rejected iff the
assertion fails. -/
def epoll_nested_run_rejected (n_fds : Nat) (ph : RunPhase) : Bool :=
  !(epoll_revents_len_at n_fds ph == 0)

/-- Value of `self->dispatch_next` during a poll-backend `poller_run`
iteration: still `-1` throughout `poller_common_dispatch`, and `i + 1`
(`self->dispatch_next = ++i`) while entry `i` is being dispatched. -/
def poll_dispatch_next_at : RunPhase → Int
  | RunPhase.commonDispatch => -1
  | RunPhase.fdDispatch i => (i : Int) + 1

/-- The poll-backend `poller_run` entry assertion
`hard_assert (self->dispatch_next == -1)`. -/
def poll_nested_run_rejected (ph : RunPhase) : Bool :=
  !(poll_dispatch_next_at ph == -1)

/-! ## The asynchronous job manager -/

/-- One `struct async` job.  The three callbacks are modelled by flags
saying whether they are non-NULL; `spawnFails` is the oracle for whether
`pthread_create` fails with `EAGAIN` at this job's next spawn attempt. -/
structure Async where
  id : Nat
  started : Bool
  cancelled : Bool
  hasDispatcher : Bool
  hasDestroy : Bool
  spawnFails : Bool
  deriving Repr, DecidableEq, Inhabited

/-- The three job queues of a `struct async_manager` (head first; the C
lists are built with `LIST_PREPEND`). -/
structure AsyncManager where
  running : List Async
  finished : List Async
  delayed : List Async
  deriving Repr, DecidableEq

/-- Observable callback invocations of the manager, in order. -/
inductive AsyncEvent
  | dispatched (id : Nat)
  | destroyed (id : Nat)
  | spawned (id : Nat)
  deriving Repr, DecidableEq

/-- `async_cancel`: request thread cancellation when started, and
unconditionally mark the job cancelled. -/
def async_cancel (a : Async) : Async := { a with cancelled := true }

/-- `async_run`: prepend the job to the running queue and spawn its worker
thread with all signals blocked; on `EAGAIN` unlink it from the running
queue again and prepend it to the delayed queue, returning `false`
without failing the caller. -/
def async_run (m : AsyncManager) (a : Async) : Bool × AsyncManager :=
  if a.spawnFails then
    (false, { m with delayed := a :: m.delayed })
  else
    (true, { m with running := { a with started := true } :: m.running })

/-- The finished-queue half of `async_manager_dispatch`:
`async_manager_dispatch_fetch` pops jobs from the head of `finished`
until it is empty; each popped job is joined, its `dispatcher` runs
unless the job is cancelled, then its `destroy` runs. -/
def async_dispatch_finished : List Async → List AsyncEvent
  | [] => []
  | a :: rest =>
      (if a.hasDispatcher && !a.cancelled then [AsyncEvent.dispatched a.id]
        else []) ++
      (if a.hasDestroy then [AsyncEvent.destroyed a.id] else []) ++
      async_dispatch_finished rest

/-- The delayed-queue half of `async_manager_dispatch`: walk the delayed
queue head first, unlinking each job; a cancelled job is destroyed, any
other is resubmitted through `async_run`, and the loop breaks at the
first failed resubmission (`async_run` has then already put that job back
at the head of the delayed queue).  Arguments: the remaining snapshot of
the delayed queue and the current running queue; result: the events, the
new delayed queue, and the new running queue. -/
def async_retry_delayed :
    List Async → List Async → List AsyncEvent × List Async × List Async
  | [], running => ([], [], running)
  | a :: rest, running =>
      if a.cancelled then
        let r := async_retry_delayed rest running
        ((if a.hasDestroy then [AsyncEvent.destroyed a.id] else []) ++ r.1,
          r.2.1, r.2.2)
      else if a.spawnFails then
        ([], a :: rest, running)
      else
        let r := async_retry_delayed rest
          ({ a with started := true } :: running)
        (AsyncEvent.spawned a.id :: r.1, r.2.1, r.2.2)

/-- `async_manager_dispatch`: drain the signalling pipe (no observable
effect here), dispatch every finished job, then retry the delayed
jobs. -/
def async_manager_dispatch (m : AsyncManager) :
    AsyncManager × List AsyncEvent :=
  let evsF := async_dispatch_finished m.finished
  let r := async_retry_delayed m.delayed m.running
  (AsyncManager.mk r.2.2 [] r.2.1, evsF ++ r.1)

/-! ## The connector -/

/-- The operating system's response to one candidate address: `socket()`
failure, immediate `connect()` success, an immediate failure other than
`EINPROGRESS`, or `EINPROGRESS` with the `SO_ERROR` value that
`connector_on_ready` later reads on writable readiness (`none` meaning
success).  The poller's delivery of that readiness event is modelled as
consulting this oracle directly; the intervening wait produces no
connector events. -/
inductive ConnOutcome
  | sockFail
  | connectOk
  | connectFail
  | inProgress (soError : Option String)
  deriving Repr, DecidableEq

/-- One resolved endpoint (one `struct addrinfo` list entry): the numeric
address string `getnameinfo` would format for it, and the outcome of
attempting to connect to it. -/
structure Candidate where
  addr : String
  outcome : ConnOutcome
  deriving Repr, DecidableEq

/-- A `struct connector_target`.  `results` models the remaining
candidates from the current iterator `iter` onwards; an unresolved target
has `gaiError = none` and `results = []`. -/
structure ConnectorTarget where
  hostname : String
  service : String
  gaiError : Option String
  results : List Candidate
  deriving Repr, DecidableEq, Inhabited

/-- The connector's user-visible callback invocations, in order. -/
inductive ConnEvent
  | connecting (address : String)
  | error (message : String)
  | connected (hostname : String)
  | failure
  deriving Repr, DecidableEq

/-- `format_host_port_pair`, as used by `connector_notify_connecting`. -/
def format_host_port_pair (host port : String) : String :=
  if host.contains ':' then "[" ++ host ++ "]:" ++ port
  else host ++ ":" ++ port

/-- `connector_prepare_next`: advance the head target's candidate
iterator; when there is no next candidate (or the iterator was never
valid, as after a resolution failure), unlink and destroy the target. -/
def connector_prepare_next : List ConnectorTarget → List ConnectorTarget
  | [] => []
  | t :: rest =>
      match t.results with
      | [] => rest
      | [_] => rest
      | _ :: c :: cs => { t with results := c :: cs } :: rest

/-- Total number of pending candidates plus targets: the quantity each
`connector_prepare_next` call strictly decreases. -/
def connectorMeasure (ts : List ConnectorTarget) : Nat :=
  (ts.map (fun t => 1 + t.results.length)).sum

theorem connector_prepare_next_measure (t : ConnectorTarget)
    (rest : List ConnectorTarget) :
    connectorMeasure (connector_prepare_next (t :: rest)) <
      connectorMeasure (t :: rest) := by
  cases hr : t.results with
  | nil => simp [connector_prepare_next, connectorMeasure, hr]
  | cons c cs =>
      cases cs <;> simp [connector_prepare_next, connectorMeasure, hr]

/-- `connector_step` driven to quiescence: one step inspects the head
target (`connector_check_target`), and every failure path runs
`connector_handle_error`, which notifies `on_error`, advances with
`connector_prepare_next` and steps again.  A pending `EINPROGRESS`
connect is continued through `connector_on_ready` when the poller reports
writability, which here is inlined via the candidate's oracle.  Error
message strings stand in for the `strerror`/`gai_strerror` texts. -/
def connector_step (ts : List ConnectorTarget) : List ConnEvent :=
  match ts with
  | [] => [ConnEvent.failure]
  | t :: rest =>
      match t.gaiError with
      | some e =>
          ConnEvent.connecting (format_host_port_pair t.hostname t.service) ::
          ConnEvent.error e ::
          connector_step (connector_prepare_next (t :: rest))
      | none =>
          match t.results with
          | [] => []
          | c :: _ =>
              ConnEvent.connecting
                  (format_host_port_pair c.addr t.service) ::
              match c.outcome with
              | ConnOutcome.sockFail =>
                  ConnEvent.error "socket failed" ::
                  connector_step (connector_prepare_next (t :: rest))
              | ConnOutcome.connectOk => [ConnEvent.connected t.hostname]
              | ConnOutcome.connectFail =>
                  ConnEvent.error "connect failed" ::
                  connector_step (connector_prepare_next (t :: rest))
              | ConnOutcome.inProgress none =>
                  [ConnEvent.connected t.hostname]
              | ConnOutcome.inProgress (some e) =>
                  ConnEvent.error e ::
                  connector_step (connector_prepare_next (t :: rest))
  termination_by connectorMeasure ts
  decreasing_by
    all_goals exact connector_prepare_next_measure t rest

/-- `connector_add_target`: duplicate the hostname and service strings
into a fresh target, submit its asynchronous resolution, and append the
target to the list. -/
def connector_add_target (ts : List ConnectorTarget)
    (hostname service : String) : List ConnectorTarget :=
  ts ++ [ConnectorTarget.mk hostname service none []]

/-- `connector_on_getaddrinfo`: record the resolution error or the
resolved addresses on the target; hostname and service are untouched. -/
def connector_on_getaddrinfo (t : ConnectorTarget) (err : Option String)
    (results : List Candidate) : ConnectorTarget :=
  { t with gaiError := err, results := results }

/-- A target whose asynchronous resolution has completed: it carries
either a resolution error or at least one candidate. -/
def TargetSettled (t : ConnectorTarget) : Prop :=
  t.gaiError.isSome ∨ t.results ≠ []

instance (t : ConnectorTarget) : Decidable (TargetSettled t) := by
  unfold TargetSettled; infer_instance

/-! ## Correctness of the batch binary search -/

theorem bsearchRevents_finds (l : List EpollEvent) (keyFd : Int) (j : Nat)
    (hsort : l.Pairwise (fun a b => a.ptrFd < b.ptrFd))
    (hj : j < l.length) (hkey : (l.getD j default).ptrFd = keyFd) :
    ∀ n lo hi, hi - lo ≤ n → lo ≤ j → j < hi → hi ≤ l.length →
      bsearchRevents l keyFd lo hi = some j := by
  have hmono : ∀ i i', i < i' → i' < l.length →
      (l.getD i default).ptrFd < (l.getD i' default).ptrFd := by
    intro i i' hii hi'
    have hi : i < l.length := lt_trans hii hi'
    rw [List.getD_eq_getElem _ _ hi, List.getD_eq_getElem _ _ hi']
    exact List.pairwise_iff_getElem.mp hsort i i' hi hi' hii
  intro n
  induction n with
  | zero => intro lo hi h1 h2 h3 h4; omega
  | succ n ihn =>
      intro lo hi h1 h2 h3 h4
      rw [bsearchRevents]
      have hlo : lo < hi := by omega
      simp only [dif_pos hlo]
      have hmidlt : (lo + hi) / 2 < l.length := by omega
      by_cases hc1 : keyFd < (l.getD ((lo + hi) / 2) default).ptrFd
      · rw [if_pos hc1]
        have hjmid : j < (lo + hi) / 2 := by
          by_contra hge
          push_neg at hge
          rcases eq_or_lt_of_le hge with heq | hlt
          · rw [heq, hkey] at hc1
            exact lt_irrefl _ hc1
          · have := hmono _ j hlt hj
            rw [hkey] at this
            exact absurd (lt_trans hc1 this) (lt_irrefl _)
        exact ihn lo ((lo + hi) / 2) (by omega) h2 hjmid (by omega)
      · rw [if_neg hc1]
        by_cases hc2 : (l.getD ((lo + hi) / 2) default).ptrFd < keyFd
        · rw [if_pos hc2]
          have hjmid : (lo + hi) / 2 < j := by
            by_contra hge
            push_neg at hge
            rcases eq_or_lt_of_le hge with heq | hlt
            · rw [← heq, hkey] at hc2
              exact lt_irrefl _ hc2
            · have := hmono j _ hlt hmidlt
              rw [hkey] at this
              exact absurd (lt_trans hc2 this) (lt_irrefl _)
          exact ihn ((lo + hi) / 2 + 1) hi (by omega) (by omega) h3 h4
        · rw [if_neg hc2]
          have hmj : (lo + hi) / 2 = j := by
            rcases lt_trichotomy ((lo + hi) / 2) j with hlt | heq | hgt
            · have := hmono _ j hlt hj
              rw [hkey] at this
              exact absurd this hc2
            · exact heq
            · have := hmono j _ hgt hmidlt
              rw [hkey] at this
              exact absurd this hc1
          rw [hmj]

/-! ## Connector run analysis -/

/-- Recognizer for `on_connected` invocations. -/
def isConnected : ConnEvent → Bool
  | ConnEvent.connected _ => true
  | _ => false

theorem connector_prepare_next_settled (ts : List ConnectorTarget)
    (hs : ∀ t ∈ ts, TargetSettled t) :
    ∀ u ∈ connector_prepare_next ts, TargetSettled u := by
  cases ts with
  | nil => simp [connector_prepare_next]
  | cons t rest =>
    intro u hu
    cases hr : t.results with
    | nil =>
        rw [connector_prepare_next, hr] at hu
        exact hs u (List.mem_cons_of_mem _ hu)
    | cons c cs =>
        cases cs with
        | nil =>
            rw [connector_prepare_next, hr] at hu
            exact hs u (List.mem_cons_of_mem _ hu)
        | cons c2 cs2 =>
            rw [connector_prepare_next, hr] at hu
            rcases List.mem_cons.mp hu with rfl | hu2
            · right; simp
            · exact hs u (List.mem_cons_of_mem _ hu2)

theorem connector_prepare_next_hostnames (ts : List ConnectorTarget) :
    ∀ u ∈ connector_prepare_next ts, ∃ t ∈ ts, u.hostname = t.hostname := by
  cases ts with
  | nil => simp [connector_prepare_next]
  | cons t rest =>
    intro u hu
    cases hr : t.results with
    | nil =>
        rw [connector_prepare_next, hr] at hu
        exact ⟨u, List.mem_cons_of_mem _ hu, rfl⟩
    | cons c cs =>
        cases cs with
        | nil =>
            rw [connector_prepare_next, hr] at hu
            exact ⟨u, List.mem_cons_of_mem _ hu, rfl⟩
        | cons c2 cs2 =>
            rw [connector_prepare_next, hr] at hu
            rcases List.mem_cons.mp hu with rfl | hu2
            · exact ⟨t, List.mem_cons_self _ _, rfl⟩
            · exact ⟨u, List.mem_cons_of_mem _ hu2, rfl⟩

theorem getLast?_cons_of_mem {a x : ConnEvent} {l : List ConnEvent}
    (hx : x ∈ l) (hl : l.getLast? = some a) :
    (∀ b : ConnEvent, (b :: l).getLast? = some a) := by
  intro b
  cases l with
  | nil => exact absurd hx (List.not_mem_nil x)
  | cons c cs => rw [List.getLast?_cons_cons]; exact hl

theorem connector_step_spec (ts : List ConnectorTarget)
    (hs : ∀ t ∈ ts, TargetSettled t) :
    (connector_step ts).countP isConnected +
      (connector_step ts).count ConnEvent.failure = 1 ∧
    (ConnEvent.failure ∈ connector_step ts →
      (connector_step ts).getLast? = some ConnEvent.failure) ∧
    (∀ hn, ConnEvent.connected hn ∈ connector_step ts →
      ∃ t ∈ ts, hn = t.hostname) := by
  obtain ⟨n, hmeas⟩ : ∃ n, connectorMeasure ts = n := ⟨_, rfl⟩
  induction n using Nat.strong_induction_on generalizing ts
  rename_i n ih
  have hrec : ∀ t rest, ts = t :: rest →
      ∀ pre : List ConnEvent,
      (∀ e ∈ pre, isConnected e = false ∧ e ≠ ConnEvent.failure) →
      (pre ++ connector_step (connector_prepare_next ts)).countP
          isConnected +
        (pre ++ connector_step (connector_prepare_next ts)).count
          ConnEvent.failure = 1 ∧
      (ConnEvent.failure ∈ pre ++ connector_step (connector_prepare_next ts) →
        (pre ++ connector_step (connector_prepare_next ts)).getLast? =
          some ConnEvent.failure) ∧
      (∀ hn, ConnEvent.connected hn ∈
          pre ++ connector_step (connector_prepare_next ts) →
        ∃ t ∈ ts, hn = t.hostname) := by
    intro t rest hts pre hpre
    have hm : connectorMeasure (connector_prepare_next ts) < n := by
      rw [← hmeas, hts]
      exact connector_prepare_next_measure t rest
    obtain ⟨ih1, ih2, ih3⟩ := ih _ hm (connector_prepare_next ts)
      (connector_prepare_next_settled ts hs) rfl
    refine ⟨?_, ?_, ?_⟩
    · rw [List.countP_append, List.count_append]
      have hc1 : pre.countP isConnected = 0 := by
        rw [List.countP_eq_zero]
        intro e he; simp [(hpre e he).1]
      have hc2 : pre.count ConnEvent.failure = 0 := by
        rw [List.count_eq_zero]
        intro hmem
        exact (hpre _ hmem).2 rfl
      omega
    · intro hmem
      have hmem2 : ConnEvent.failure ∈
          connector_step (connector_prepare_next ts) := by
        rcases List.mem_append.mp hmem with h | h
        · exact absurd rfl ((hpre _ h).2)
        · exact h
      have hlast := ih2 hmem2
      clear hmem
      induction pre with
      | nil => simpa using hlast
      | cons b bs ihpre =>
          rw [List.cons_append]
          exact @getLast?_cons_of_mem ConnEvent.failure ConnEvent.failure _
            (List.mem_append.mpr (Or.inr hmem2))
            (ihpre (fun e he => hpre e (List.mem_cons_of_mem _ he))) b
    · intro hn hmem
      have hmem2 : ConnEvent.connected hn ∈
          connector_step (connector_prepare_next ts) := by
        rcases List.mem_append.mp hmem with h | h
        · have := (hpre _ h).1
          simp [isConnected] at this
        · exact h
      obtain ⟨u, hu, rfl⟩ := ih3 hn hmem2
      obtain ⟨t', ht', heq⟩ := connector_prepare_next_hostnames ts u hu
      exact ⟨t', ht', heq⟩
  cases hts : ts with
  | nil =>
      rw [connector_step]
      refine ⟨by decide, by decide, ?_⟩
      intro hn hmem
      simp at hmem
  | cons t rest =>
      rw [connector_step]
      cases hgai : t.gaiError with
      | some e =>
          simp only
          have := hrec t rest hts
            [ConnEvent.connecting (format_host_port_pair t.hostname
              t.service), ConnEvent.error e]
            (by intro ev hev; rcases List.mem_cons.mp hev with rfl | hev2
                · exact ⟨rfl, by simp⟩
                · rcases List.mem_cons.mp hev2 with rfl | hev3
                  · exact ⟨rfl, by simp⟩
                  · exact absurd hev3 (List.not_mem_nil ev))
          rw [hts] at this
          simpa using this
      | none =>
          cases hres : t.results with
          | nil =>
              exact absurd (hs t (hts ▸ List.mem_cons_self t rest))
                (by simp [TargetSettled, hgai, hres])
          | cons c cands =>
              simp only
              cases hout : c.outcome with
              | sockFail =>
                  have := hrec t rest hts
                    [ConnEvent.connecting (format_host_port_pair c.addr
                      t.service), ConnEvent.error "socket failed"]
                    (by intro ev hev
                        rcases List.mem_cons.mp hev with rfl | hev2
                        · exact ⟨rfl, by simp⟩
                        · rcases List.mem_cons.mp hev2 with rfl | hev3
                          · exact ⟨rfl, by simp⟩
                          · exact absurd hev3 (List.not_mem_nil ev))
                  rw [hts] at this
                  simpa using this
              | connectOk =>
                  refine ⟨by simp [isConnected], by simp, ?_⟩
                  intro hn hmem
                  simp only [List.mem_cons] at hmem
                  rcases hmem with h | h | h
                  · exact absurd h (by simp)
                  · exact ⟨t, hts ▸ List.mem_cons_self t rest,
                      by simpa using h⟩
                  · exact absurd h (List.not_mem_nil _)
              | connectFail =>
                  have := hrec t rest hts
                    [ConnEvent.connecting (format_host_port_pair c.addr
                      t.service), ConnEvent.error "connect failed"]
                    (by intro ev hev
                        rcases List.mem_cons.mp hev with rfl | hev2
                        · exact ⟨rfl, by simp⟩
                        · rcases List.mem_cons.mp hev2 with rfl | hev3
                          · exact ⟨rfl, by simp⟩
                          · exact absurd hev3 (List.not_mem_nil ev))
                  rw [hts] at this
                  simpa using this
              | inProgress soErr =>
                  cases soErr with
                  | none =>
                      refine ⟨by simp [isConnected], by simp, ?_⟩
                      intro hn hmem
                      simp only [List.mem_cons] at hmem
                      rcases hmem with h | h | h
                      · exact absurd h (by simp)
                      · exact ⟨t, hts ▸ List.mem_cons_self t rest,
                          by simpa using h⟩
                      · exact absurd h (List.not_mem_nil _)
                  | some e =>
                      have := hrec t rest hts
                        [ConnEvent.connecting (format_host_port_pair c.addr
                          t.service), ConnEvent.error e]
                        (by intro ev hev
                            rcases List.mem_cons.mp hev with rfl | hev2
                            · exact ⟨rfl, by simp⟩
                            · rcases List.mem_cons.mp hev2 with rfl | hev3
                              · exact ⟨rfl, by simp⟩
                              · exact absurd hev3 (List.not_mem_nil ev))
                      rw [hts] at this
                      simpa using this

/-! ## Async manager analysis -/

/-- The events `async_retry_delayed` emits for one delayed job it
reaches: destruction for a cancelled job, a spawn otherwise. -/
def asyncRetryEvents (a : Async) : List AsyncEvent :=
  if a.cancelled then
    (if a.hasDestroy then [AsyncEvent.destroyed a.id] else [])
  else [AsyncEvent.spawned a.id]

theorem async_retry_delayed_spec (l : List Async) : ∀ running : List Async,
    ∃ k, k ≤ l.length ∧
      (async_retry_delayed l running).2.1 = l.drop k ∧
      (k < l.length → (l.getD k default).cancelled = false ∧
        (l.getD k default).spawnFails = true) ∧
      (∀ a ∈ l.take k, a.cancelled = false → a.spawnFails = false) ∧
      (async_retry_delayed l running).1 =
        (l.take k).flatMap asyncRetryEvents ∧
      (async_retry_delayed l running).2.2 =
        (((l.take k).filter (fun a => !a.cancelled)).map
          (fun a => { a with started := true })).reverse ++ running := by
  induction l with
  | nil =>
      intro running
      exact ⟨0, by simp [async_retry_delayed]⟩
  | cons a rest ihl =>
      intro running
      by_cases hc : a.cancelled
      · obtain ⟨k, hk, h1, h2, h3, h4, h5⟩ := ihl running
        refine ⟨k + 1, by simp; omega, ?_, ?_, ?_, ?_, ?_⟩
        · rw [async_retry_delayed]
          simp only [if_pos hc]
          simpa using h1
        · intro hlt
          simp only [List.length_cons] at hlt
          rw [List.getD_cons_succ]
          exact h2 (by omega)
        · intro b hb
          rw [List.take_succ_cons] at hb
          rcases List.mem_cons.mp hb with rfl | hb2
          · intro hfalse; rw [hc] at hfalse; cases hfalse
          · exact h3 b hb2
        · rw [async_retry_delayed]
          simp only [if_pos hc]
          rw [List.take_succ_cons, List.flatMap_cons]
          simp only [asyncRetryEvents, if_pos hc]
          rw [h4]
        · rw [async_retry_delayed]
          simp only [if_pos hc]
          rw [List.take_succ_cons, List.filter_cons_of_neg (by simp [hc])]
          exact h5
      · by_cases hsf : a.spawnFails
        · refine ⟨0, by omega, ?_, ?_, ?_, ?_, ?_⟩
          · rw [async_retry_delayed]
            simp [hc, hsf]
          · intro _
            rw [List.getD_cons_zero]
            exact ⟨by simpa using hc, hsf⟩
          · intro b hb; simp at hb
          · rw [async_retry_delayed]; simp [hc, hsf]
          · rw [async_retry_delayed]; simp [hc, hsf]
        · obtain ⟨k, hk, h1, h2, h3, h4, h5⟩ :=
            ihl ({ a with started := true } :: running)
          refine ⟨k + 1, by simp; omega, ?_, ?_, ?_, ?_, ?_⟩
          · rw [async_retry_delayed]
            simp only [if_neg hc, if_neg hsf]
            simpa using h1
          · intro hlt
            simp only [List.length_cons] at hlt
            rw [List.getD_cons_succ]
            exact h2 (by omega)
          · intro b hb
            rw [List.take_succ_cons] at hb
            rcases List.mem_cons.mp hb with rfl | hb2
            · intro _; simpa using hsf
            · exact h3 b hb2
          · rw [async_retry_delayed]
            simp only [if_neg hc, if_neg hsf]
            rw [List.take_succ_cons, List.flatMap_cons]
            simp only [asyncRetryEvents, if_neg hc]
            rw [h4]
            rfl
          · rw [async_retry_delayed]
            simp only [if_neg hc, if_neg hsf]
            rw [List.take_succ_cons,
              List.filter_cons_of_pos (by simp [hc]), List.map_cons,
              List.reverse_cons]
            rw [h5, List.append_assoc]
            rfl

theorem count_retry_destroyed (l : List Async) (i : Nat) :
    (l.flatMap asyncRetryEvents).count (AsyncEvent.destroyed i) =
      l.countP (fun a => a.cancelled && a.hasDestroy && (a.id == i)) := by
  induction l with
  | nil => rfl
  | cons a rest ihl =>
      rw [List.flatMap_cons, List.count_append, ihl, List.countP_cons]
      unfold asyncRetryEvents
      by_cases hc : a.cancelled <;> by_cases hd : a.hasDestroy <;>
        by_cases hi : a.id = i <;>
          simp [hc, hd, hi, List.count_cons] <;> omega

theorem count_retry_spawned (l : List Async) (i : Nat) :
    (l.flatMap asyncRetryEvents).count (AsyncEvent.spawned i) =
      l.countP (fun a => !a.cancelled && (a.id == i)) := by
  induction l with
  | nil => rfl
  | cons a rest ihl =>
      rw [List.flatMap_cons, List.count_append, ihl, List.countP_cons]
      unfold asyncRetryEvents
      by_cases hc : a.cancelled <;> by_cases hd : a.hasDestroy <;>
        by_cases hi : a.id = i <;>
          simp [hc, hd, hi, List.count_cons] <;> omega

theorem count_retry_dispatched (l : List Async) (i : Nat) :
    (l.flatMap asyncRetryEvents).count (AsyncEvent.dispatched i) = 0 := by
  induction l with
  | nil => rfl
  | cons a rest ihl =>
      rw [List.flatMap_cons, List.count_append, ihl]
      unfold asyncRetryEvents
      by_cases hc : a.cancelled <;> by_cases hd : a.hasDestroy <;>
        simp [hc, hd, List.count_cons]

theorem count_finished_destroyed (l : List Async) (i : Nat) :
    (async_dispatch_finished l).count (AsyncEvent.destroyed i) =
      l.countP (fun a => a.hasDestroy && (a.id == i)) := by
  induction l with
  | nil => rfl
  | cons a rest ihl =>
      rw [async_dispatch_finished, List.count_append, List.count_append,
        ihl, List.countP_cons]
      by_cases hc : a.cancelled <;> by_cases hd : a.hasDestroy <;>
        by_cases hp : a.hasDispatcher <;> by_cases hi : a.id = i <;>
          simp [hc, hd, hp, hi, List.count_cons] <;> omega

theorem count_finished_dispatched (l : List Async) (i : Nat) :
    (async_dispatch_finished l).count (AsyncEvent.dispatched i) =
      l.countP (fun a => a.hasDispatcher && !a.cancelled && (a.id == i)) := by
  induction l with
  | nil => rfl
  | cons a rest ihl =>
      rw [async_dispatch_finished, List.count_append, List.count_append,
        ihl, List.countP_cons]
      by_cases hc : a.cancelled <;> by_cases hd : a.hasDestroy <;>
        by_cases hp : a.hasDispatcher <;> by_cases hi : a.id = i <;>
          simp [hc, hd, hp, hi, List.count_cons] <;> omega

theorem countP_id_unique (l : List Async)
    (hn : (l.map (fun a => a.id)).Nodup) (a : Async) (ha : a ∈ l)
    (p : Async → Bool) :
    l.countP (fun b => p b && (b.id == a.id)) = if p a then 1 else 0 := by
  induction l with
  | nil => exact absurd ha (List.not_mem_nil a)
  | cons b rest ihl =>
      rw [List.map_cons, List.nodup_cons] at hn
      rw [List.countP_cons]
      rcases List.mem_cons.mp ha with rfl | hmem
      · have hz : rest.countP (fun b => p b && (b.id == a.id)) = 0 := by
          rw [List.countP_eq_zero]
          intro c hc
          have hne : c.id ≠ a.id := by
            intro he
            exact hn.1 (he ▸ List.mem_map_of_mem _ hc)
          simp [hne]
        rw [hz]
        by_cases hp : p a <;> simp [hp]
      · have hne : b.id ≠ a.id := by
          intro he
          exact hn.1 (by
            rw [he]
            exact List.mem_map_of_mem _ hmem)
        rw [ihl hn.2 hmem]
        simp [hne]

theorem countP_id_zero (l : List Async)
    (a : Async) (hnot : ∀ b ∈ l, b.id ≠ a.id) (p : Async → Bool) :
    l.countP (fun b => p b && (b.id == a.id)) = 0 := by
  rw [List.countP_eq_zero]
  intro c hc
  simp [hnot c hc]

/-! ## Remaining bookkeeping lemmas -/

theorem heap_setWhen (s : PollerTimers) (tid : Nat) (v : Int) :
    (s.setWhen tid v).heap = s.heap := rfl

theorem tindex_setWhen (s : PollerTimers) (tid : Nat) (v : Int) (x : Nat) :
    (s.setWhen tid v).tindex x = s.tindex x := by
  unfold PollerTimers.tindex PollerTimers.setWhen
  simp only [List.getD_eq_getElem?_getD, List.getElem?_set]
  rcases eq_or_ne tid x with rfl | hne
  · by_cases h : tid < s.timers.length
    · simp [h, List.getD_eq_getElem?_getD]
    · have hnone : s.timers[tid]? = none := by
        rw [List.getElem?_eq_none_iff]; omega
      simp [h, hnone]
  · simp [hne]

theorem twhen_setWhen (s : PollerTimers) (tid : Nat) (v : Int)
    (htid : tid < s.timers.length) :
    (s.setWhen tid v).twhen tid = v := by
  unfold PollerTimers.twhen PollerTimers.setWhen
  simp [List.getD_eq_getElem?_getD, List.getElem?_set, htid]

theorem count_finished_spawned (l : List Async) (i : Nat) :
    (async_dispatch_finished l).count (AsyncEvent.spawned i) = 0 := by
  induction l with
  | nil => rfl
  | cons a rest ihl =>
      rw [async_dispatch_finished, List.count_append, List.count_append, ihl]
      by_cases hc : a.cancelled <;> by_cases hd : a.hasDestroy <;>
        by_cases hp : a.hasDispatcher <;>
          simp [hc, hd, hp, List.count_cons]

theorem perm_filter_split {l₁ l₂ l : List Nat} (p : Nat → Bool)
    (hperm : (l₁ ++ l₂).Perm l) (h1 : ∀ a ∈ l₁, p a = true)
    (h2 : ∀ a ∈ l₂, p a = false) : l₁.Perm (l.filter p) := by
  have h := (hperm.filter p).symm
  have hnil : List.filter p l₂ = [] :=
    List.filter_eq_nil_iff.mpr (fun a ha => by simp [h2 a ha])
  rw [List.filter_append, List.filter_eq_self.mpr h1, hnil,
    List.append_nil] at h
  exact h.symm

/-! ## Concrete fixtures used by witnesses and counterexamples -/

/-- Three scheduled timers with expiries 1, 3, 5; a valid min-heap with
consistent back indices. -/
def exTimers : PollerTimers :=
  PollerTimers.mk [PTimer.mk 1 0, PTimer.mk 5 2, PTimer.mk 3 1] [0, 2, 1]

/-- Seven scheduled timers with expiries 0, 10, 1, 11, 12, 2, 3 laid out
as a valid min-heap `[0, 10, 1, 11, 12, 2, 3]`. -/
def c2state : PollerTimers :=
  PollerTimers.mk
    [PTimer.mk 0 0, PTimer.mk 10 1, PTimer.mk 1 2, PTimer.mk 11 3,
      PTimer.mk 12 4, PTimer.mk 2 5, PTimer.mk 3 6]
    [0, 1, 2, 3, 4, 5, 6]

/-- A captured epoll batch of three entries, sorted by descriptor number
(3, 5, 7), belonging to registrations 10, 11, 12. -/
def c1batch : List EpollEvent :=
  [EpollEvent.mk 1 3 10, EpollEvent.mk 4 5 11, EpollEvent.mk 1 7 12]

/-- A delayed job that is not cancelled and whose next spawn attempt
fails with `EAGAIN` again. -/
def c4jobA : Async := Async.mk 0 false false true true true

/-- A cancelled delayed job with a destroy callback. -/
def c4jobB : Async := Async.mk 1 false true true true false

/-- A manager whose delayed queue holds `c4jobA` in front of `c4jobB`. -/
def c4manager : AsyncManager := AsyncManager.mk [] [] [c4jobA, c4jobB]

/-- One target whose resolution failed. -/
def c5target : ConnectorTarget :=
  ConnectorTarget.mk "example.test" "443" (some "getaddrinfo: failed") []

/-- A manager with one finished job and the cancelled job `c4jobB`
delayed, ids distinct. -/
def c4wmanager : AsyncManager :=
  AsyncManager.mk [] [Async.mk 5 true false true true false] [c4jobB]

/-- One resolved target whose single candidate connects immediately. -/
def c9target : ConnectorTarget :=
  ConnectorTarget.mk "h.example" "80" none
    [Candidate.mk "10.0.0.1" ConnOutcome.connectOk]

/-- A delayed job whose respawn will succeed. -/
def c7jobC : Async := Async.mk 2 false false true true false

/-- A manager with one finished and one delayed job. -/
def c7manager : AsyncManager :=
  AsyncManager.mk [] [Async.mk 3 true false true true false] [c7jobC]

/-! ## The claims -/

/-- C1: when an fd registration is removed while an epoll readiness batch
(pre-sorted by descriptor number, descriptor numbers distinct, the
removed registration owning exactly one entry) is being dispatched,
`poller_remove_from_dispatch` finds that entry by binary search,
overwrites it with the dummy sentinel, and the dispatch loop skips
sentinel entries — so the removed registration's dispatcher is never
invoked for any entry of the batch still to be dispatched, wherever
dispatch currently stands. -/
theorem claim_C1_mid_batch_removal (revents : List EpollEvent)
    (fdnum : Int) (reg : Nat) (j k : Nat)
    (hsort : revents.Pairwise (fun a b => a.ptrFd < b.ptrFd))
    (hj : j < revents.length)
    (hkey : (revents.getD j default).ptrFd = fdnum)
    (huniq : ∀ i, i < revents.length → i ≠ j →
      (revents.getD i default).reg ≠ reg) :
    reg ∉ epollDispatchFrom
      (poller_remove_from_dispatch revents fdnum reg) k := by
  have hfind : bsearchRevents revents fdnum 0 revents.length = some j :=
    bsearchRevents_finds revents fdnum j hsort hj hkey revents.length 0
      revents.length (by omega) (by omega) hj (le_refl _)
  have hne : ¬(revents.length = 0) := by omega
  rw [poller_remove_from_dispatch, if_neg hne, hfind]
  intro hmem
  unfold epollDispatchFrom at hmem
  obtain ⟨e, he, hereg⟩ := List.mem_map.mp hmem
  rw [List.mem_filter] at he
  obtain ⟨hedrop, hecond⟩ := he
  obtain ⟨i, hi, hei⟩ := List.getElem_of_mem hedrop
  rw [List.getElem_drop] at hei
  have hlen : k + i < revents.length := by
    have := hi
    simp only [List.length_drop, List.length_set] at this
    omega
  rcases eq_or_ne (k + i) j with heq | hne2
  · -- the marked entry: its events word is the dummy, so it was skipped
    rw [List.getElem_set] at hei
    rw [if_pos heq.symm] at hei
    rw [← hei] at hecond
    simp at hecond
  · -- any other entry belongs to a different registration
    rw [List.getElem_set] at hei
    rw [if_neg (fun hx => hne2 hx.symm)] at hei
    have := huniq (k + i) hlen hne2
    rw [List.getD_eq_getElem _ _ hlen] at this
    rw [hei] at this
    exact this hereg

/-- C1 witness: in a concrete sorted three-entry batch, removing the
middle registration keeps its dispatcher out of the remaining dispatch. -/
theorem claim_C1_witness :
    (c1batch.Pairwise (fun a b => a.ptrFd < b.ptrFd) ∧
      1 < c1batch.length ∧ (c1batch.getD 1 default).ptrFd = 5 ∧
      (∀ i, i < c1batch.length → i ≠ 1 →
        (c1batch.getD i default).reg ≠ 11)) ∧
    11 ∉ epollDispatchFrom (poller_remove_from_dispatch c1batch 5 11) 0 :=
  ⟨⟨by decide, by decide, by decide, by decide⟩,
    claim_C1_mid_batch_removal c1batch 5 11 1 0 (by decide) (by decide)
      (by decide) (by decide)⟩

/-- C2: the claim states that `poller_timers_remove_at_index` sifts the
swapped-in last element both up and down, keeping the min-heap property
after every removal.  The code only calls `poller_timers_heapify_down`,
and removing a middle element whose replacement is smaller than the
slot's parent leaves the heap property violated: from the valid heap with
expiries `[0, 10, 1, 11, 12, 2, 3]` and consistent back indices, removing
index 3 produces expiry layout `[0, 10, 1, 3, 12, 2]`, where the parent
`10` at index 1 exceeds its child `3` at index 3. -/
theorem claim_C2_remove_only_sifts_down :
    HeapProp c2state ∧ IndexConsistent c2state ∧
    ¬ HeapProp (poller_timers_remove_at_index c2state 3) := by
  refine ⟨by decide, by decide, ?_⟩
  rw [poller_timers_remove_at_index, poller_timers_heapify_down]
  decide

/-- C3: the wait timeout is `0` whenever the idle queue is non-empty, as
claimed; but with the delayed queue non-empty and no timer scheduled the
code computes `MIN (-1, 1000) = -1` and waits forever, so the claimed
"never exceeds 1000 ms" bound fails: delayed jobs are then not retried
promptly (nor at all, unless some other event arrives). -/
theorem claim_C3_delayed_timeout_not_capped :
    (∀ (s : PollerTimers) (now : Int) (d : Bool),
      poller_common_get_timeout true d s now = 0) ∧
    poller_common_get_timeout false true (PollerTimers.mk [] []) 0 = -1 ∧
    cMIN (-1) 1000 = -1 := by
  refine ⟨fun s now d => rfl, by decide, by decide⟩

/-- C6: for every timer-heap state satisfying the min-heap property and
every instant `now`, `poller_timers_dispatch` repeatedly removes the heap
root while its expiry is at most `now`, invoking the callback after the
removal, so it fires exactly the timers whose expiry is `≤ now` (a
permutation of that subset of the heap pointers), each exactly once, in
non-decreasing expiry order, and leaves exactly the timers with expiry
`> now` scheduled, with unchanged expiries and the heap property
intact. -/
theorem claim_C6_dispatch_due (s : PollerTimers) (now : Int)
    (hp : HeapProp s) :
    (poller_timers_dispatch s now).2.Perm
      (s.heap.filter (fun tid => decide (s.twhen tid ≤ now))) ∧
    ((poller_timers_dispatch s now).2.map s.twhen).Sorted (· ≤ ·) ∧
    (poller_timers_dispatch s now).1.heap.Perm
      (s.heap.filter (fun tid => decide (now < s.twhen tid))) ∧
    (∀ x, (poller_timers_dispatch s now).1.twhen x = s.twhen x) ∧
    HeapProp (poller_timers_dispatch s now).1 := by
  obtain ⟨hperm, htw, hfired, hrem, hsort, hhp⟩ :=
    poller_timers_dispatch_spec s now hp
  refine ⟨?_, hsort, ?_, htw, hhp⟩
  · refine perm_filter_split _ hperm ?_ ?_
    · intro a ha; simp [hfired a ha]
    · intro a ha; simp [not_le.mpr (hrem a ha)]
  · refine perm_filter_split _ (List.perm_append_comm.trans hperm) ?_ ?_
    · intro a ha; simp [hrem a ha]
    · intro a ha; simp [not_lt.mpr (hfired a ha)]

/-- C6 witness: dispatching the concrete heap with expiries 1, 3, 5 at
instant 3. -/
theorem claim_C6_witness :
    HeapProp exTimers ∧
    ((poller_timers_dispatch exTimers 3).2.Perm
      (exTimers.heap.filter
        (fun tid => decide (exTimers.twhen tid ≤ 3))) ∧
    ((poller_timers_dispatch exTimers 3).2.map exTimers.twhen).Sorted
      (· ≤ ·) ∧
    (poller_timers_dispatch exTimers 3).1.heap.Perm
      (exTimers.heap.filter
        (fun tid => decide (3 < exTimers.twhen tid))) ∧
    (∀ x, (poller_timers_dispatch exTimers 3).1.twhen x =
      exTimers.twhen x) ∧
    HeapProp (poller_timers_dispatch exTimers 3).1) :=
  ⟨by decide, claim_C6_dispatch_due exTimers 3 (by decide)⟩

/-- C10: rescheduling an already scheduled timer (stored index valid and
pointing into the heap) with `poller_timer_set` re-heapifies it in place:
the number of scheduled timers is unchanged, the heap holds the same
pointers (so exactly one entry for this timer, no second one), and
afterwards the timer is scheduled (its index is non-negative) with its
new absolute expiry `now + timeout_ms`. -/
theorem claim_C10_reschedule_in_place (s : PollerTimers) (tid : Nat)
    (now timeout_ms : Int)
    (htid : tid < s.timers.length)
    (h0 : 0 ≤ s.tindex tid)
    (hrange : (s.tindex tid).toNat < s.heap.length)
    (hmem : tid ∈ s.heap) (hnodup : s.heap.Nodup) :
    (poller_timer_set s tid now timeout_ms).heap.length =
      s.heap.length ∧
    (poller_timer_set s tid now timeout_ms).heap.Perm s.heap ∧
    (poller_timer_set s tid now timeout_ms).heap.count tid = 1 ∧
    (poller_timer_set s tid now timeout_ms).twhen tid =
      now + timeout_ms ∧
    0 ≤ (poller_timer_set s tid now timeout_ms).tindex tid := by
  rw [poller_timer_set, poller_timers_set]
  have htind1 : (s.setWhen tid (now + timeout_ms)).tindex tid =
      s.tindex tid := tindex_setWhen s tid _ tid
  have hheap1 : (s.setWhen tid (now + timeout_ms)).heap = s.heap :=
    heap_setWhen s tid _
  have hcond : (s.setWhen tid (now + timeout_ms)).tindex tid ≠ -1 := by
    rw [htind1]; omega
  rw [if_pos hcond]
  have opsD : HeapOps (s.setWhen tid (now + timeout_ms))
      (poller_timers_heapify_down (s.setWhen tid (now + timeout_ms))
        ((s.setWhen tid (now + timeout_ms)).tindex tid).toNat) :=
    heapify_down_ops _ _
  have hrangeD := opsD.index_in_range tid
    (by rw [htind1]; exact h0)
    (by rw [htind1, hheap1]; exact hrange)
  have opsU := heapify_up_ops _ _ hrangeD.2
  have hlenD := opsD.heap_len
  have hlenU := opsU.heap_len
  have htwD := opsD.twhen_eq
  have htwU := opsU.twhen_eq
  refine ⟨?_, ?_, ?_, ?_, ?_⟩
  · rw [hlenU, hlenD, hheap1]
  · exact opsU.perm.trans opsD.perm
  · have hperm : (poller_timers_heapify_up
        (poller_timers_heapify_down (s.setWhen tid (now + timeout_ms))
          ((s.setWhen tid (now + timeout_ms)).tindex tid).toNat)
        ((poller_timers_heapify_down (s.setWhen tid (now + timeout_ms))
          ((s.setWhen tid (now + timeout_ms)).tindex tid).toNat).tindex
            tid).toNat).heap.Perm s.heap := opsU.perm.trans opsD.perm
    rw [hperm.count_eq]
    exact List.count_eq_one_of_mem hnodup hmem
  · rw [htwU, htwD]
    exact twhen_setWhen s tid _ htid
  · exact (opsU.index_in_range tid hrangeD.1 hrangeD.2).1

/-- C10 witness: rescheduling timer 1 of the concrete three-timer heap to
expiry 15. -/
theorem claim_C10_witness :
    (1 < exTimers.timers.length ∧ 0 ≤ exTimers.tindex 1 ∧
      (exTimers.tindex 1).toNat < exTimers.heap.length ∧
      1 ∈ exTimers.heap ∧ exTimers.heap.Nodup) ∧
    ((poller_timer_set exTimers 1 10 5).heap.length =
      exTimers.heap.length ∧
    (poller_timer_set exTimers 1 10 5).heap.Perm exTimers.heap ∧
    (poller_timer_set exTimers 1 10 5).heap.count 1 = 1 ∧
    (poller_timer_set exTimers 1 10 5).twhen 1 = 10 + 5 ∧
    0 ≤ (poller_timer_set exTimers 1 10 5).tindex 1) :=
  ⟨⟨by decide, by decide, by decide, by decide, by decide⟩,
    claim_C10_reschedule_in_place exTimers 1 10 5 (by decide) (by decide)
      (by decide) (by decide) (by decide)⟩

/-- C4 counterexample: with a non-cancelled delayed job whose respawn
fails again at the head of the delayed queue, the retry pass of
`async_manager_dispatch` stops before reaching the cancelled job behind
it: that job's destroy callback does not run in this dispatch (it runs
zero times, not exactly once) and the job stays in the delayed queue. -/
theorem claim_C4_counterexample :
    c4jobB.cancelled = true ∧ c4jobB.hasDestroy = true ∧
    c4jobB ∈ c4manager.delayed ∧
    (async_manager_dispatch c4manager).2.count
      (AsyncEvent.destroyed c4jobB.id) = 0 ∧
    c4jobB ∈ (async_manager_dispatch c4manager).1.delayed := by decide

/-- C4 (amended): provided job identities are unique, a cancelled job's
dispatcher is never invoked by `async_manager_dispatch`; a job in the
finished queue has its destroy invoked exactly once; and a cancelled job
in the delayed queue either has its destroy invoked exactly once and
leaves the queue, or — when the retry pass stops at an earlier job whose
respawn fails — is left untouched in the delayed queue for a later
dispatch, its destroy not yet run. -/
theorem claim_C4_cancelled_never_dispatched (m : AsyncManager) (a : Async)
    (hn : ((m.finished ++ m.delayed).map (fun b => b.id)).Nodup) :
    (a ∈ m.finished ++ m.delayed → a.cancelled = true →
      AsyncEvent.dispatched a.id ∉ (async_manager_dispatch m).2) ∧
    (a ∈ m.finished → a.hasDestroy = true →
      (async_manager_dispatch m).2.count (AsyncEvent.destroyed a.id) = 1) ∧
    (a ∈ m.delayed → a.cancelled = true → a.hasDestroy = true →
      ((async_manager_dispatch m).2.count (AsyncEvent.destroyed a.id) = 1 ∧
        a ∉ (async_manager_dispatch m).1.delayed) ∨
      ((async_manager_dispatch m).2.count (AsyncEvent.destroyed a.id) = 0 ∧
        a ∈ (async_manager_dispatch m).1.delayed)) := by
  obtain ⟨k, hk, hd, _hstop, _hpr, hev, _hrun⟩ :=
    async_retry_delayed_spec m.delayed m.running
  have hev2 : (async_manager_dispatch m).2 =
      async_dispatch_finished m.finished ++
      (async_retry_delayed m.delayed m.running).1 := rfl
  have hdel2 : (async_manager_dispatch m).1.delayed =
      (async_retry_delayed m.delayed m.running).2.1 := rfl
  rw [List.map_append] at hn
  have hnF : (m.finished.map (fun b => b.id)).Nodup := hn.of_append_left
  have hnD : (m.delayed.map (fun b => b.id)).Nodup := hn.of_append_right
  have hdisj := List.disjoint_of_nodup_append hn
  have hid_ne : ∀ b ∈ m.finished, ∀ c ∈ m.delayed, b.id ≠ c.id := by
    intro b hb c hc he
    exact hdisj (List.mem_map_of_mem _ hb) (he ▸ List.mem_map_of_mem _ hc)
  refine ⟨?_, ?_, ?_⟩
  · intro hmem hcanc
    rw [hev2, ← List.count_eq_zero]
    rw [List.count_append, count_finished_dispatched, hev,
      count_retry_dispatched]
    rcases List.mem_append.mp hmem with hf | hdl
    · rw [countP_id_unique m.finished hnF a hf]
      simp [hcanc]
    · rw [countP_id_zero m.finished a
        (fun b hb => hid_ne b hb a hdl)]
  · intro hf hdes
    rw [hev2, List.count_append, count_finished_destroyed, hev,
      count_retry_destroyed]
    rw [countP_id_unique m.finished hnF a hf]
    rw [countP_id_zero (m.delayed.take k) a
      (fun b hb => hid_ne a hf b (List.take_subset k m.delayed hb) ∘ Eq.symm)]
    simp [hdes]
  · intro hdl hcanc hdes
    have hnk : ((m.delayed.take k).map (fun b => b.id)).Nodup := by
      rw [List.map_take]
      exact hnD.sublist (List.take_sublist k _)
    have hdisj2 : ∀ b ∈ m.delayed.take k, ∀ c ∈ m.delayed.drop k,
        b.id ≠ c.id := by
      intro b hb c hc he
      have h2 := hnD
      rw [← List.take_append_drop k m.delayed, List.map_append] at h2
      exact List.disjoint_of_nodup_append h2
        (List.mem_map_of_mem _ hb) (he ▸ List.mem_map_of_mem _ hc)
    have hsplit : a ∈ m.delayed.take k ∨ a ∈ m.delayed.drop k := by
      rcases List.mem_append.mp
        ((List.take_append_drop k m.delayed).symm ▸ hdl) with h | h
      · exact Or.inl h
      · exact Or.inr h
    rcases hsplit with htake | hdrop
    · left
      constructor
      · rw [hev2, List.count_append, count_finished_destroyed, hev,
          count_retry_destroyed]
        rw [countP_id_zero m.finished a
          (fun b hb => hid_ne b hb a hdl)]
        rw [countP_id_unique (m.delayed.take k) hnk a htake]
        simp [hcanc, hdes]
      · rw [hdel2, hd]
        intro hdrop
        exact hdisj2 a htake a hdrop rfl
    · right
      constructor
      · rw [hev2, List.count_append, count_finished_destroyed, hev,
          count_retry_destroyed]
        rw [countP_id_zero m.finished a
          (fun b hb => hid_ne b hb a hdl)]
        rw [countP_id_zero (m.delayed.take k) a
          (fun b hb => hdisj2 b hb a hdrop)]
      · rw [hdel2, hd]
        exact hdrop

/-- C4 witness: one finished job and one cancelled delayed job, distinct
ids; the dispatch destroys the cancelled delayed job exactly once. -/
theorem claim_C4_witness :
    ((c4wmanager.finished ++ c4wmanager.delayed).map
      (fun b => b.id)).Nodup ∧
    ((c4jobB ∈ c4wmanager.finished ++ c4wmanager.delayed →
      c4jobB.cancelled = true →
      AsyncEvent.dispatched c4jobB.id ∉
        (async_manager_dispatch c4wmanager).2) ∧
    (c4jobB ∈ c4wmanager.finished → c4jobB.hasDestroy = true →
      (async_manager_dispatch c4wmanager).2.count
        (AsyncEvent.destroyed c4jobB.id) = 1) ∧
    (c4jobB ∈ c4wmanager.delayed → c4jobB.cancelled = true →
      c4jobB.hasDestroy = true →
      (((async_manager_dispatch c4wmanager).2.count
          (AsyncEvent.destroyed c4jobB.id) = 1 ∧
        c4jobB ∉ (async_manager_dispatch c4wmanager).1.delayed) ∨
      ((async_manager_dispatch c4wmanager).2.count
          (AsyncEvent.destroyed c4jobB.id) = 0 ∧
        c4jobB ∈ (async_manager_dispatch c4wmanager).1.delayed)))) :=
  ⟨by decide,
    claim_C4_cancelled_never_dispatched c4wmanager c4jobB (by decide)⟩

/-- C5: once every added target's resolution has completed, a connector
run invokes exactly one of `on_connected` and `on_failure`; when
`on_failure` occurs, it is the final event, it occurs exactly once, and
no `on_connected` occurred in that run. -/
theorem claim_C5_exactly_one_terminal (ts : List ConnectorTarget)
    (hs : ∀ t ∈ ts, TargetSettled t) :
    (connector_step ts).countP isConnected +
      (connector_step ts).count ConnEvent.failure = 1 ∧
    (ConnEvent.failure ∈ connector_step ts →
      (connector_step ts).getLast? = some ConnEvent.failure ∧
      (connector_step ts).countP isConnected = 0 ∧
      (connector_step ts).count ConnEvent.failure = 1) := by
  obtain ⟨h1, h2, _h3⟩ := connector_step_spec ts hs
  refine ⟨h1, fun hmem => ⟨h2 hmem, ?_, ?_⟩⟩
  · have := List.count_pos_iff.mpr hmem
    omega
  · have := List.count_pos_iff.mpr hmem
    omega

/-- C5 witness: a single target with a failed resolution produces exactly
one `on_failure` and no `on_connected`. -/
theorem claim_C5_witness :
    (∀ t ∈ [c5target], TargetSettled t) ∧
    ((connector_step [c5target]).countP isConnected +
      (connector_step [c5target]).count ConnEvent.failure = 1 ∧
    (ConnEvent.failure ∈ connector_step [c5target] →
      (connector_step [c5target]).getLast? = some ConnEvent.failure ∧
      (connector_step [c5target]).countP isConnected = 0 ∧
      (connector_step [c5target]).count ConnEvent.failure = 1)) :=
  ⟨by decide, claim_C5_exactly_one_terminal [c5target] (by decide)⟩

/-- C7: a job whose spawn fails with `EAGAIN` is moved to the delayed
queue without failing the caller; each `async_manager_dispatch` retry
pass then walks the delayed queue in order, re-attempting each reached
non-cancelled job exactly once, stops at the first job whose respawn
fails again (leaving it and everything behind it in the delayed queue,
nothing dropped), and moves exactly the reached non-cancelled jobs to
the running queue — no job is duplicated across queues. -/
theorem claim_C7_eagain_delayed_retry (m : AsyncManager)
    (hn : (m.delayed.map (fun b => b.id)).Nodup) :
    (∀ (m₂ : AsyncManager) (a : Async), a.spawnFails = true →
      async_run m₂ a = (false, { m₂ with delayed := a :: m₂.delayed })) ∧
    ∃ k, k ≤ m.delayed.length ∧
      (async_manager_dispatch m).1.delayed = m.delayed.drop k ∧
      (k < m.delayed.length →
        (m.delayed.getD k default).cancelled = false ∧
        (m.delayed.getD k default).spawnFails = true) ∧
      (∀ a ∈ m.delayed.take k, a.cancelled = false →
        (async_manager_dispatch m).2.count (AsyncEvent.spawned a.id) = 1) ∧
      (async_manager_dispatch m).1.running =
        (((m.delayed.take k).filter (fun a => !a.cancelled)).map
          (fun a => { a with started := true })).reverse ++ m.running := by
  refine ⟨fun m₂ a hf => by rw [async_run, if_pos hf], ?_⟩
  obtain ⟨k, hk, hd, hstop, _hpr, hev, hrun⟩ :=
    async_retry_delayed_spec m.delayed m.running
  have hdel2 : (async_manager_dispatch m).1.delayed =
      (async_retry_delayed m.delayed m.running).2.1 := rfl
  have hrun2 : (async_manager_dispatch m).1.running =
      (async_retry_delayed m.delayed m.running).2.2 := rfl
  have hev2 : (async_manager_dispatch m).2 =
      async_dispatch_finished m.finished ++
      (async_retry_delayed m.delayed m.running).1 := rfl
  refine ⟨k, hk, by rw [hdel2, hd], hstop, ?_, by rw [hrun2, hrun]⟩
  intro a ha hac
  have hnk : ((m.delayed.take k).map (fun b => b.id)).Nodup := by
    rw [List.map_take]
    exact hn.sublist (List.take_sublist k _)
  rw [hev2, List.count_append, count_finished_spawned, hev,
    count_retry_spawned]
  rw [countP_id_unique (m.delayed.take k) hnk a ha]
  simp [hac]

/-- C7 witness: a manager with one finished job and one delayed job whose
respawn succeeds; the retry pass spawns it exactly once and empties the
delayed queue. -/
theorem claim_C7_witness :
    (c7manager.delayed.map (fun b => b.id)).Nodup ∧
    ((∀ (m₂ : AsyncManager) (a : Async), a.spawnFails = true →
      async_run m₂ a = (false, { m₂ with delayed := a :: m₂.delayed })) ∧
    ∃ k, k ≤ c7manager.delayed.length ∧
      (async_manager_dispatch c7manager).1.delayed =
        c7manager.delayed.drop k ∧
      (k < c7manager.delayed.length →
        (c7manager.delayed.getD k default).cancelled = false ∧
        (c7manager.delayed.getD k default).spawnFails = true) ∧
      (∀ a ∈ c7manager.delayed.take k, a.cancelled = false →
        (async_manager_dispatch c7manager).2.count
          (AsyncEvent.spawned a.id) = 1) ∧
      (async_manager_dispatch c7manager).1.running =
        (((c7manager.delayed.take k).filter
            (fun a => !a.cancelled)).map
          (fun a => { a with started := true })).reverse ++
          c7manager.running) :=
  ⟨by decide, claim_C7_eagain_delayed_retry c7manager (by decide)⟩

/-- C8 counterexample: the claim says a nested `poller_run` is rejected
while any callback of the iteration runs, in every backend.  In the poll
backend `dispatch_next` is still `-1` while timer/idle/async callbacks
run, so the entry assertion passes and the nested call is not rejected;
in the epoll/kqueue backends the same happens whenever the captured
batch is empty (`revents_len = n_fds = 0`). -/
theorem claim_C8_counterexample :
    poll_nested_run_rejected RunPhase.commonDispatch = false ∧
    epoll_nested_run_rejected 0 RunPhase.commonDispatch = false := by
  decide

/-- C8 (amended): the epoll/kqueue backends reject a nested `poller_run`
at every callback point of an iteration whose captured batch is
non-empty, and the poll backend rejects it during the fd dispatch loop;
during timer/idle/async dispatch the poll backend's assertion does not
fire, nor does the epoll/kqueue one when the captured batch is empty. -/
theorem claim_C8_nested_run_guard (n_fds i : Nat) (h : 0 < n_fds) :
    epoll_nested_run_rejected n_fds RunPhase.commonDispatch = true ∧
    epoll_nested_run_rejected n_fds (RunPhase.fdDispatch i) = true ∧
    poll_nested_run_rejected (RunPhase.fdDispatch i) = true := by
  unfold epoll_nested_run_rejected poll_nested_run_rejected
    epoll_revents_len_at poll_dispatch_next_at
  refine ⟨?_, ?_, ?_⟩
  · simp only [Bool.not_eq_true']
    rw [beq_eq_false_iff_ne]
    omega
  · simp only [Bool.not_eq_true']
    rw [beq_eq_false_iff_ne]
    omega
  · simp only [Bool.not_eq_true']
    rw [beq_eq_false_iff_ne]
    intro hx
    omega

/-- C8 witness: with one captured event, the nested call is rejected at
both callback points of epoll/kqueue and inside the poll fd loop. -/
theorem claim_C8_witness :
    0 < 1 ∧
    (epoll_nested_run_rejected 1 RunPhase.commonDispatch = true ∧
      epoll_nested_run_rejected 1 (RunPhase.fdDispatch 0) = true ∧
      poll_nested_run_rejected (RunPhase.fdDispatch 0) = true) :=
  ⟨by decide, claim_C8_nested_run_guard 1 0 (by decide)⟩

/-- C9: every `on_connected` notification carries the hostname string of
one of the connector's targets — the one being attempted — not the
numeric address of the candidate that connected; it happens at most once
per run; `connector_add_target` stores exactly the hostname string it
was passed in the appended target, and `connector_on_getaddrinfo` never
modifies it. -/
theorem claim_C9_connected_gets_original_hostname
    (ts : List ConnectorTarget) (hs : ∀ t ∈ ts, TargetSettled t) :
    (∀ hn, ConnEvent.connected hn ∈ connector_step ts →
      ∃ t ∈ ts, hn = t.hostname) ∧
    (connector_step ts).countP isConnected ≤ 1 ∧
    (∀ (ts₂ : List ConnectorTarget) (host svc : String),
      (connector_add_target ts₂ host svc).getLast? =
        some (ConnectorTarget.mk host svc none [])) ∧
    (∀ (t : ConnectorTarget) (e : Option String) (r : List Candidate),
      (connector_on_getaddrinfo t e r).hostname = t.hostname) := by
  obtain ⟨h1, _h2, h3⟩ := connector_step_spec ts hs
  refine ⟨h3, by omega, ?_, fun t e r => rfl⟩
  intro ts₂ host svc
  unfold connector_add_target
  exact List.getLast?_concat _

/-- C9 witness: a target "h.example" whose only candidate connects;
the run's `on_connected` carries "h.example". -/
theorem claim_C9_witness :
    (∀ t ∈ [c9target], TargetSettled t) ∧
    ((∀ hn, ConnEvent.connected hn ∈ connector_step [c9target] →
      ∃ t ∈ [c9target], hn = t.hostname) ∧
    (connector_step [c9target]).countP isConnected ≤ 1 ∧
    (∀ (ts₂ : List ConnectorTarget) (host svc : String),
      (connector_add_target ts₂ host svc).getLast? =
        some (ConnectorTarget.mk host svc none [])) ∧
    (∀ (t : ConnectorTarget) (e : Option String) (r : List Candidate),
      (connector_on_getaddrinfo t e r).hostname = t.hostname)) :=
  ⟨by decide,
    claim_C9_connected_gets_original_hostname [c9target] (by decide)⟩

end Liberty
